import Mathlib

/-!
Shallow embedding of the receipt-processor service (`main.go`): the scoring
engine `calculatePoints` and the identifier-keyed `ReceiptStore`.

Strings are modelled as lists of Unicode scalar values (`List Char`); Go's
byte-level string operations (`len`, slicing) act on the UTF-8 encoding,
modelled explicitly by `utf8`.  Go `float64` arithmetic is modelled exactly:
a finite float value is the rational number it denotes — represented by the
fraction type `Q` below — and every operation rounds its exact rational
result to the IEEE-754 binary64 grid (round to nearest, ties to even) via
`roundF`.  Go's 64-bit `int` arithmetic wraps; the embedding computes the
exact integer and reduces it with `wrap64`, and the float64-to-int
conversion `goInt64` follows the reference gc compiler on amd64 for the
out-of-range cases the Go spec leaves implementation-dependent.
-/

/-- An exact (not necessarily reduced) fraction `num / den`; every value the
embedding constructs has `den > 0`. -/
structure Q where
  num : ℤ
  den : ℕ
deriving DecidableEq

/-- The integer `n` as a fraction. -/
def qofInt (n : ℤ) : Q := ⟨n, 1⟩

/-- `|q|`. -/
def qabs (q : Q) : Q := ⟨|q.num|, q.den⟩

/-- Exact product of fractions. -/
def qmul (a b : Q) : Q := ⟨a.num * b.num, a.den * b.den⟩

/-- `a ≤ b` by cross-multiplication (valid for positive denominators). -/
def qleB (a b : Q) : Bool := decide (a.num * (b.den : ℤ) ≤ b.num * (a.den : ℤ))

/-- `a < b` by cross-multiplication (valid for positive denominators). -/
def qltB (a b : Q) : Bool := decide (a.num * (b.den : ℤ) < b.num * (a.den : ℤ))

/-- Fueled floor-log2 on naturals: `natLog2F f n` is `⌊log₂ n⌋` for `n ≥ 1`
provided `f` is at least the number of halvings needed (calling it with
`f = n` always suffices). -/
def natLog2F : Nat → Nat → Nat
  | 0, _ => 0
  | f + 1, n => if 2 ≤ n then natLog2F f (n / 2) + 1 else 0

/-- `⌊log₂ n⌋` for `n ≥ 1` (and `0` for `n = 0`). -/
def natLog2 (n : Nat) : Nat := natLog2F n n

/-- `2 ^ z` as a fraction, for an integer exponent. -/
def qpow2 : ℤ → Q
  | Int.ofNat n => ⟨((2 ^ n : ℕ) : ℤ), 1⟩
  | Int.negSucc n => ⟨1, 2 ^ (n + 1)⟩

/-- `10 ^ z` as a fraction, for an integer exponent. -/
def qpow10 : ℤ → Q
  | Int.ofNat n => ⟨((10 ^ n : ℕ) : ℤ), 1⟩
  | Int.negSucc n => ⟨1, 10 ^ (n + 1)⟩

/-- `q * 2 ^ z`, exactly. -/
def qmulPow2 (q : Q) : ℤ → Q
  | Int.ofNat n => ⟨q.num * ((2 ^ n : ℕ) : ℤ), q.den⟩
  | Int.negSucc n => ⟨q.num, q.den * 2 ^ (n + 1)⟩

/-- `⌊q⌋` (denominator positive, so `Int.fdiv` is the floor). -/
def floorQ (q : Q) : ℤ := Int.fdiv q.num (q.den : ℤ)

/-- `⌈q⌉`. -/
def ceilQ (q : Q) : ℤ := -(Int.fdiv (-q.num) (q.den : ℤ))

/-- Round a fraction to the nearest integer, ties to even.  The fractional
part `q - ⌊q⌋` is compared with `1/2` by comparing `2·(num - ⌊q⌋·den)` with
`den`. -/
def rne (q : Q) : ℤ :=
  let f := floorQ q
  let t := 2 * (q.num - f * (q.den : ℤ))
  if t < (q.den : ℤ) then f
  else if (q.den : ℤ) < t then f + 1
  else if f % 2 = 0 then f else f + 1

/-- `⌊log₂ q⌋` for a positive fraction `q`. -/
def flog2 (q : Q) : ℤ :=
  let e0 : ℤ := (natLog2 q.num.toNat : ℤ) - (natLog2 q.den : ℤ)
  if qleB (qpow2 e0) q then e0 else e0 - 1

/-- Round an exact rational value to the IEEE-754 binary64 grid (round to
nearest, ties to even; subnormal spacing below `2^-1022`; no overflow clamp —
callers check the `2^1024` overflow bound separately). -/
def roundF (q : Q) : Q :=
  if q.num = 0 then ⟨0, 1⟩
  else
    let e := max (flog2 (qabs q)) (-1022)
    qmul (qofInt (rne (qmulPow2 q (52 - e)))) (qpow2 (e - 52))

/-- Exact truncation toward zero (the in-range part of Go's float64-to-int
conversion; `goInt64` below adds the out-of-range clamping). -/
def truncQ (q : Q) : ℤ := if 0 ≤ q.num then floorQ q else ceilQ q

/-- The float64 value of the Go constant `0.2`. -/
def fl02 : Q := roundF ⟨1, 5⟩

/-- ASCII decimal digit test. -/
def isDigit (c : Char) : Bool := decide ('0' ≤ c ∧ c ≤ '9')

/-- Value of a string of ASCII digits. -/
def digitsVal (ds : List Char) : ℕ := ds.foldl (fun a c => 10 * a + (c.toNat - 48)) 0

/-- Exponent part of a float literal (what follows `e`/`E`): optional sign and
a nonempty digit run consuming the whole rest. -/
def expPart (t : List Char) : Option ℤ :=
  let p : ℤ × List Char := match t with
    | '+' :: u => (1, u)
    | '-' :: u => (-1, u)
    | u => (1, u)
  let ds := p.2.takeWhile isDigit
  if ds = [] ∨ p.2.dropWhile isDigit ≠ [] then none
  else some (p.1 * (digitsVal ds : ℤ))

/-- Abbreviation for string literals as rune lists. -/
def str (s : String) : List Char := s.data

/-- A Go `float64` value: a finite value (the exact rational it denotes), a
signed infinity, or NaN. -/
inductive GoFloat where
  | finite (q : Q)
  | inf (neg : Bool)
  | nan
deriving DecidableEq

/-- ASCII lower-casing, as `strconv`'s byte-wise `lower` behaves on the
comparisons it is used for. -/
def lowerChar (c : Char) : Char :=
  if 'A' ≤ c ∧ c ≤ 'Z' then Char.ofNat (c.toNat + 32) else c

/-- Model of `strconv`'s `special`: the whole-string special float words.
"inf"/"infinity" take an optional sign and "nan" takes none, all
case-insensitively (`ParseFloat` demands the match consume the full input). -/
def goSpecial (s : List Char) : Option GoFloat :=
  let l := s.map lowerChar
  if l = str "inf" ∨ l = str "infinity" ∨ l = str "+inf" ∨ l = str "+infinity" then
    some (GoFloat.inf false)
  else if l = str "-inf" ∨ l = str "-infinity" then some (GoFloat.inf true)
  else if l = str "nan" then some GoFloat.nan
  else none

/-- ASCII hexadecimal digit test (either case). -/
def isHexDigit (c : Char) : Bool :=
  decide (('0' ≤ c ∧ c ≤ '9') ∨ ('a' ≤ c ∧ c ≤ 'f') ∨ ('A' ≤ c ∧ c ≤ 'F'))

/-- Value of a string of hexadecimal digits. -/
def hexDigitsVal (ds : List Char) : ℕ :=
  ds.foldl (fun a c =>
    16 * a + (if '0' ≤ c ∧ c ≤ '9' then c.toNat - 48
              else if 'a' ≤ c ∧ c ≤ 'f' then c.toNat - 87
              else c.toNat - 55)) 0

/-- State loop of `strconv`'s `underscoreOK`: `saw` is 0 at the beginning of
the number, 1 after a digit (or base prefix), 2 after an underscore and 3
after anything else; an underscore must have a digit on both sides. -/
def uOKloop (hex : Bool) : List Char → ℕ → Bool
  | [], saw => saw ≠ 2
  | c :: t, saw =>
    if ('0' ≤ c ∧ c ≤ '9') ∨ (hex ∧ isHexDigit c) then uOKloop hex t 1
    else if c = '_' then if saw = 1 then uOKloop hex t 2 else false
    else if saw = 2 then false
    else uOKloop hex t 3

/-- Model of `strconv.underscoreOK`: digit-separating underscores are legal
only immediately between digits (or between a base prefix and a digit). -/
def underscoreOK (s : List Char) : Bool :=
  let s1 := match s with
    | '+' :: t => t
    | '-' :: t => t
    | t => t
  match s1 with
  | '0' :: c :: t =>
    if lowerChar c = 'b' ∨ lowerChar c = 'o' ∨ lowerChar c = 'x' then
      uOKloop (lowerChar c = 'x') t 1
    else uOKloop false s1 0
  | _ => uOKloop false s1 0

/-- Rounded conversion of an exact literal value to float64; `none` models
`strconv`'s range error on overflow (`err != nil`, so callers skip the rule).
Underflow to zero is silent in `strconv` (no error), as here. -/
def f64ofQ (q : Q) : Option GoFloat :=
  let r := roundF q
  if qltB (qabs r) (qpow2 1024) then some (GoFloat.finite r) else none

/-- The decimal form `digits[.digits][eE[+-]digits]` of `strconv.ParseFloat`
(underscores already stripped), with the sign applied to the mantissa. -/
def parseDecCore (sg : ℤ) (body : List Char) : Option GoFloat :=
  let ip := body.takeWhile isDigit
  let r1 := body.dropWhile isDigit
  let q : List Char × List Char := match r1 with
    | '.' :: t => (t.takeWhile isDigit, t.dropWhile isDigit)
    | t => ([], t)
  if ip = [] ∧ q.1 = [] then none
  else
    let mant : Q := ⟨sg * ((digitsVal ip * 10 ^ q.1.length + digitsVal q.1 : ℕ) : ℤ),
                     10 ^ q.1.length⟩
    match q.2 with
    | [] => f64ofQ mant
    | c :: t =>
      if c = 'e' ∨ c = 'E' then
        match expPart t with
        | some ex => f64ofQ (qmul mant (qpow10 ex))
        | none => none
      else none

/-- The hexadecimal form `0x hexdigits[.hexdigits] pP[+-]digits` of
`strconv.ParseFloat` (underscores already stripped; the binary `p` exponent
is mandatory), with the sign applied to the mantissa. -/
def parseHexCore (sg : ℤ) (body : List Char) : Option GoFloat :=
  let ip := body.takeWhile isHexDigit
  let r1 := body.dropWhile isHexDigit
  let q : List Char × List Char := match r1 with
    | '.' :: t => (t.takeWhile isHexDigit, t.dropWhile isHexDigit)
    | t => ([], t)
  if ip = [] ∧ q.1 = [] then none
  else
    let mant : Q := ⟨sg * ((hexDigitsVal ip * 16 ^ q.1.length + hexDigitsVal q.1 : ℕ) : ℤ),
                     16 ^ q.1.length⟩
    match q.2 with
    | c :: t =>
      if lowerChar c = 'p' then
        match expPart t with
        | some ex => f64ofQ (qmulPow2 mant ex)
        | none => none
      else none
    | [] => none

/-- Model of `strconv.ParseFloat(s, 64)`: the special words `Inf`, `Infinity`
and `NaN`, then (gated by `underscoreOK` and with underscores stripped) the
decimal and hexadecimal float-literal grammars, correctly rounded to
binary64.  `none` is a syntactic or overflow (`ErrRange`) failure — exactly
the cases where the program's `err == nil` check skips the rule. -/
def parseGoFloat (s : List Char) : Option GoFloat :=
  match goSpecial s with
  | some f => some f
  | none =>
    if underscoreOK s then
      let u := s.filter (fun c => c ≠ '_')
      let p : ℤ × List Char := match u with
        | '+' :: t => (1, t)
        | '-' :: t => (-1, t)
        | t => (1, t)
      match p.2 with
      | '0' :: c :: t =>
        if lowerChar c = 'x' then parseHexCore p.1 t else parseDecCore p.1 p.2
      | _ => parseDecCore p.1 p.2
    else none

/-- Go float64 multiplication by a positive finite constant (the program's
`* 100` and `* 0.2`): exact product, rounded to binary64, overflowing to the
correctly signed infinity. -/
def goMul (f : GoFloat) (c : Q) : GoFloat :=
  match f with
  | GoFloat.finite q =>
    let r := roundF (qmul q c)
    if qleB (qpow2 1024) (qabs r) then GoFloat.inf (decide (r.num < 0)) else GoFloat.finite r
  | GoFloat.inf b => GoFloat.inf b
  | GoFloat.nan => GoFloat.nan

/-- `math.Ceil` on a float64: exact on finite values (the ceiling of a finite
float64 is always representable), identity on infinities and NaN. -/
def goCeil (f : GoFloat) : GoFloat :=
  match f with
  | GoFloat.finite q => GoFloat.finite ⟨ceilQ q, 1⟩
  | x => x

/-- Go's `int(f)` conversion of a float64 on gc/amd64 (`CVTTSD2SI`):
truncation toward zero when the truncated value fits in int64, and
`-2^63` for out-of-range values, infinities and NaN.  (The Go spec leaves
the out-of-range cases implementation-dependent; this models the reference
gc compiler on amd64.) -/
def goInt64 (f : GoFloat) : ℤ :=
  match f with
  | GoFloat.finite q =>
    let t := truncQ q
    if -(2 ^ 63) ≤ t ∧ t ≤ 2 ^ 63 - 1 then t else -(2 ^ 63)
  | GoFloat.inf _ => -(2 ^ 63)
  | GoFloat.nan => -(2 ^ 63)

/-- Reduction of an exact integer to Go's 64-bit `int` (two's complement):
the centered representative modulo `2^64`.  The program's `points`
accumulator wraps by this rule. -/
def wrap64 (x : ℤ) : ℤ := (x + 2 ^ 63) % 2 ^ 64 - 2 ^ 63

/-- Model of `strconv.Atoi`: optional sign, nonempty digit run, whole string;
`none` on a malformed literal or when the value leaves the 64-bit `int` range. -/
def parseGoInt (s : List Char) : Option ℤ :=
  let p : ℤ × List Char := match s with
    | '+' :: t => (1, t)
    | '-' :: t => (-1, t)
    | t => (1, t)
  if p.2 = [] ∨ ¬ p.2.all isDigit then none
  else
    let v := p.1 * (digitsVal p.2 : ℤ)
    if -(2 ^ 63) ≤ v ∧ v ≤ 2 ^ 63 - 1 then some v else none

/-- Model of `unicode.IsSpace`: the Unicode `White_Space` code points. -/
def isGoSpace (c : Char) : Bool :=
  let n := c.toNat
  decide (n = 9 ∨ n = 10 ∨ n = 11 ∨ n = 12 ∨ n = 13 ∨ n = 32 ∨ n = 133 ∨ n = 160 ∨
    n = 5760 ∨ (8192 ≤ n ∧ n ≤ 8202) ∨ n = 8232 ∨ n = 8233 ∨ n = 8239 ∨ n = 8287 ∨ n = 12288)

/-- Model of `strings.TrimSpace`: drop white space from both ends. -/
def goTrim (cs : List Char) : List Char :=
  ((cs.dropWhile isGoSpace).reverse.dropWhile isGoSpace).reverse

/-- UTF-8 encoding of one Unicode scalar value, as byte values. -/
def encChar (c : Char) : List ℕ :=
  let n := c.toNat
  if n < 128 then [n]
  else if n < 2048 then [192 + n / 64, 128 + n % 64]
  else if n < 65536 then [224 + n / 4096, 128 + n / 64 % 64, 128 + n % 64]
  else [240 + n / 262144, 128 + n / 4096 % 64, 128 + n / 64 % 64, 128 + n % 64]

/-- UTF-8 encoding of a string, as byte values; Go's byte-level string
operations act on this list. -/
def utf8 : List Char → List ℕ
  | [] => []
  | c :: cs => encChar c ++ utf8 cs

/-- Go's `len` on a string: its length in UTF-8 bytes. -/
def utf8Len (cs : List Char) : ℕ := (utf8 cs).length

/-- Model of `strings.Split` with a one-character separator (Go's `Split`
with `"-"` / `":"`): the separator-free chunks, `[[]]` on the empty string. -/
def splitOnC (sep : Char) : List Char → List (List Char)
  | [] => [[]]
  | c :: cs =>
    match splitOnC sep cs with
    | [] => [[c]]
    | g :: gs => if c = sep then [] :: g :: gs else (c :: g) :: gs

/-- The character test of Rule 1 in `calculatePoints`. -/
def isAlnum (c : Char) : Bool :=
  decide (('a' ≤ c ∧ c ≤ 'z') ∨ ('A' ≤ c ∧ c ≤ 'Z') ∨ ('0' ≤ c ∧ c ≤ '9'))

/-- `Item` of `main.go`. -/
structure Item where
  ShortDescription : List Char
  Price : List Char
deriving DecidableEq

/-- `Receipt` of `main.go`. -/
structure Receipt where
  Retailer : List Char
  PurchaseDate : List Char
  PurchaseTime : List Char
  Items : List Item
  Total : List Char
deriving DecidableEq

/-- Rule 1: one point for every alphanumeric character in the retailer name
(`range` over a Go string yields its runes). -/
def rule1 (r : Receipt) : ℤ := (r.Retailer.countP isAlnum : ℤ)

/-- Rule 2: 50 points if the last three bytes of `Total`
(`receipt.Total[len(receipt.Total)-3:]`) are `".00"` (bytes 46, 48, 48).
`calculatePoints` guards the out-of-range slice panic separately. -/
def rule2 (r : Receipt) : ℤ :=
  let bs := utf8 r.Total
  if bs.drop (bs.length - 3) = [46, 48, 48] then 50 else 0

/-- Rule 3: 25 points if `Total` parses as a float64 and
`int(totalFloat*100) % 25 == 0` (float64 product, gc/amd64 `int` conversion;
Go `%` is the truncated remainder `Int.tmod`). -/
def rule3 (r : Receipt) : ℤ :=
  match parseGoFloat r.Total with
  | some f => if Int.tmod (goInt64 (goMul f (qofInt 100))) 25 = 0 then 25 else 0
  | none => 0

/-- Rule 4: 5 points for every two items. -/
def rule4 (r : Receipt) : ℤ := ((r.Items.length / 2) * 5 : ℕ)

/-- Rule 5, per item: if the trimmed description's byte length is a multiple
of 3 and the price parses as a float64, add `int(math.Ceil(price * 0.2))`. -/
def itemPoints (it : Item) : ℤ :=
  if utf8Len (goTrim it.ShortDescription) % 3 = 0 then
    match parseGoFloat it.Price with
    | some p => goInt64 (goCeil (goMul p fl02))
    | none => 0
  else 0

/-- Rule 5 over all items. -/
def rule5 (r : Receipt) : ℤ := (r.Items.map itemPoints).sum

/-- A price is benign for Rule 5: it either fails to parse, or parses to a
non-negative finite value whose Rule 5 ceiling stays inside the int64 range
(so the gc/amd64 conversion neither clamps nor goes negative). -/
def priceOKB (it : Item) : Bool :=
  match parseGoFloat it.Price with
  | none => true
  | some (GoFloat.finite q) =>
    decide (0 ≤ q.num) && decide (ceilQ (roundF (qmul q fl02)) < 2 ^ 63)
  | some _ => false

/-- Rule 6: 6 points if `PurchaseDate` splits on `-` into exactly 3 parts and
the third parses with `Atoi` to an odd day (`day % 2 == 1`). -/
def rule6 (r : Receipt) : ℤ :=
  let parts := splitOnC '-' r.PurchaseDate
  if parts.length = 3 then
    match parseGoInt (parts.getD 2 []) with
    | some d => if Int.tmod d 2 = 1 then 6 else 0
    | none => 0
  else 0

/-- Rule 7: 10 points if `PurchaseTime` splits on `:` into exactly 2 parts and
the first parses with `Atoi` to an hour with `14 ≤ hour < 16`. -/
def rule7 (r : Receipt) : ℤ :=
  let parts := splitOnC ':' r.PurchaseTime
  if parts.length = 2 then
    match parseGoInt (parts.getD 0 []) with
    | some h => if 14 ≤ h ∧ h < 16 then 10 else 0
    | none => 0
  else 0

/-- `calculatePoints` of `main.go`.  `none` models the run-time panic of the
Rule 2 slice `receipt.Total[len(receipt.Total)-3:]` when `Total` is shorter
than 3 bytes; otherwise the seven rule contributions are summed. -/
def calculatePoints (r : Receipt) : Option ℤ :=
  if (utf8 r.Total).length < 3 then none
  else some (wrap64 (rule1 r + rule2 r + rule3 r + rule4 r + rule5 r + rule6 r + rule7 r))

/-- `ReceiptStore` of `main.go`: the identifier-to-points map, modelled as an
association list read through `List.lookup` (entries are never overwritten,
so first-match lookup agrees with Go map semantics). -/
structure ReceiptStore where
  receipts : List (String × ℤ)
deriving DecidableEq

/-- `NewReceiptStore`. -/
def NewReceiptStore : ReceiptStore := ⟨[]⟩

/-- `AddReceipt`.  The identifier minted by `uuid.New().String()` is passed in
as the parameter `id` (the generator is nondeterministic; freshness is a
hypothesis of the theorems).  Returns the identifier and the post-state;
`none` propagates a panic of `calculatePoints`. -/
def AddReceipt (s : ReceiptStore) (id : String) (r : Receipt) : Option (String × ReceiptStore) :=
  match calculatePoints r with
  | some pts => some (id, ⟨(id, pts) :: s.receipts⟩)
  | none => none

/-- `GetPoints`: the Go map read `points, exists := s.receipts[id]` (zero
value when absent).  The second component is the post-state of the receiver,
which the method leaves untouched. -/
def GetPoints (s : ReceiptStore) (id : String) : (ℤ × Bool) × ReceiptStore :=
  match s.receipts.lookup id with
  | some p => ((p, true), s)
  | none => ((0, false), s)

/-- The documented reference receipt (the spec's end-to-end scenario). -/
def targetReceipt : Receipt where
  Retailer := str "Target"
  PurchaseDate := str "2022-01-01"
  PurchaseTime := str "13:01"
  Items := [⟨str "Mountain Dew 12PK", str "6.49"⟩,
            ⟨str "Emils Cheese Pizza", str "12.25"⟩,
            ⟨str "Knorr Creamy Chicken", str "1.26"⟩,
            ⟨str "Doritos Nacho Cheese", str "3.35"⟩,
            ⟨str "Klarbrunn 12-PK 12 FL OZ", str "12.00"⟩]
  Total := str "35.35"


set_option maxRecDepth 40000

/-! ### Helper lemmas about the UTF-8 encoding -/

theorem encChar_ne_nil (c : Char) : encChar c ≠ [] := by
  simp only [encChar]
  split <;> try simp
  split <;> try simp
  split <;> simp

theorem encChar_ascii {c : Char} (h : c.toNat < 128) : encChar c = [c.toNat] := by
  unfold encChar
  simp [h]

theorem encChar_all_ge {c : Char} (h : 128 ≤ c.toNat) :
    ∀ b ∈ encChar c, 128 ≤ b := by
  intro b hb
  simp only [encChar] at hb
  split at hb
  · omega
  · split at hb
    · simp at hb
      rcases hb with hb | hb <;> omega
    · split at hb
      · simp at hb
        rcases hb with hb | hb | hb <;> omega
      · simp at hb
        rcases hb with hb | hb | hb | hb <;> omega

theorem utf8_append (xs ys : List Char) : utf8 (xs ++ ys) = utf8 xs ++ utf8 ys := by
  induction xs with
  | nil => rfl
  | cons c cs ih => simp [utf8, ih]

theorem length_le_utf8Len (cs : List Char) : cs.length ≤ utf8Len cs := by
  induction cs with
  | nil => simp [utf8Len, utf8]
  | cons c cs ih =>
    have h1 : 1 ≤ (encChar c).length := by
      have := encChar_ne_nil c
      cases h : encChar c with
      | nil => exact absurd h this
      | cons x xs => simp
    simp only [utf8Len, utf8, List.length_append, List.length_cons]
    simp only [utf8Len] at ih
    omega

theorem utf8_eq_nil {cs : List Char} (h : utf8 cs = []) : cs = [] := by
  cases cs with
  | nil => rfl
  | cons c cs =>
    simp [utf8] at h
    exact absurd h.1 (encChar_ne_nil c)

theorem charToNat_inj {c d : Char} (h : c.toNat = d.toNat) : c = d :=
  Char.ext (UInt32.toNat.inj h)

theorem utf8_ascii_eq : ∀ (cs ds : List Char), (∀ d ∈ ds, d.toNat < 128) →
    utf8 ds = utf8 cs → ds = cs := by
  intro cs
  induction cs with
  | nil =>
    intro ds _ h
    exact utf8_eq_nil h
  | cons c cs ih =>
    intro ds hascii h
    cases ds with
    | nil =>
      exfalso
      rw [utf8, utf8] at h
      exact encChar_ne_nil c (List.append_eq_nil.mp h.symm).1
    | cons d ds =>
      have hd : d.toNat < 128 := hascii d (List.mem_cons_self d ds)
      rw [utf8, utf8, encChar_ascii hd] at h
      have hc : c.toNat < 128 := by
        by_contra hge
        push_neg at hge
        have hmem : d.toNat ∈ encChar c := by
          cases henc : encChar c with
          | nil => exact absurd henc (encChar_ne_nil c)
          | cons e es =>
            rw [henc] at h
            simp at h
            simp [h.1]
        exact absurd (encChar_all_ge hge _ hmem) (by omega)
      rw [encChar_ascii hc] at h
      simp at h
      obtain ⟨h1, h2⟩ := h
      have : ds = cs := ih ds (fun x hx => hascii x (List.mem_cons_of_mem d hx)) h2
      rw [charToNat_inj h1, this]

theorem suffix_dot00_utf8 (cs : List Char) :
    [46, 48, 48] <:+ utf8 cs ↔ ['.', '0', '0'] <:+ cs := by
  constructor
  · intro h
    induction cs with
    | nil =>
      exfalso
      obtain ⟨t, ht⟩ := h
      simp [utf8] at ht
    | cons c cs ih =>
      obtain ⟨t, ht⟩ := h
      rw [utf8] at ht
      rcases List.append_eq_append_iff.mp ht with ⟨a, ha1, ha2⟩ | ⟨a, ha1, ha2⟩
      · -- the byte suffix starts inside `encChar c`
        cases a with
        | nil =>
          -- whole suffix equals the tail encoding
          have hsuf : [46, 48, 48] <:+ utf8 cs := by
            simp only [List.nil_append] at ha2
            exact ⟨[], by simp [← ha2]⟩
          exact (ih hsuf).trans (List.suffix_cons c cs)
        | cons x xs =>
          have hmem : ∀ b ∈ (x :: xs : List ℕ), b ∈ ([46, 48, 48] : List ℕ) := by
            intro b hb
            rw [ha2]
            exact List.mem_append_left _ hb
          have hlt : ∀ b ∈ (x :: xs : List ℕ), b < 128 := by
            intro b hb
            have := hmem b hb
            simp at this
            rcases this with h | h | h <;> omega
          have hc : c.toNat < 128 := by
            by_contra hge
            push_neg at hge
            have hx : x ∈ encChar c := by
              rw [ha1]
              exact List.mem_append_right _ (List.mem_cons_self x xs)
            exact absurd (encChar_all_ge hge _ hx) (by
              have := hlt x (List.mem_cons_self x xs)
              omega)
          rw [encChar_ascii hc] at ha1
          have ht0 : t = [] ∧ (x :: xs : List ℕ) = [c.toNat] := by
            cases t with
            | nil => simpa using ha1.symm
            | cons y ys =>
              exfalso
              have := congrArg List.length ha1
              simp at this
          obtain ⟨rfl, hxx⟩ := ht0
          rw [hxx] at ha2
          simp at ha2
          obtain ⟨h46, h4848⟩ := ha2
          have hcs : cs = ['0', '0'] :=
            (utf8_ascii_eq cs ['0', '0'] (by decide) (by rw [h4848.symm]; decide)).symm
          have hcdot : c = '.' := charToNat_inj (by rw [← h46]; rfl)
          rw [hcs, hcdot]
      · -- the byte suffix lies entirely within the tail encoding
        have : [46, 48, 48] <:+ utf8 cs := ⟨a, ha2.symm⟩
        exact (ih this).trans (List.suffix_cons c cs)
  · intro h
    obtain ⟨t, ht⟩ := h
    refine ⟨utf8 t, ?_⟩
    have : utf8 (t ++ ['.', '0', '0']) = utf8 t ++ [46, 48, 48] := by
      rw [utf8_append]
      rfl
    rw [← this, ht]

/-! ### Sign lemmas for the rule contributions -/

theorem fdiv_nonpos_of_nonpos {a b : ℤ} (ha : a ≤ 0) (hb : 0 ≤ b) : a.fdiv b ≤ 0 := by
  rw [Int.fdiv_eq_ediv _ hb]
  rcases ha.lt_or_eq with h | h
  · rcases hb.lt_or_eq with hb' | hb'
    · exact le_of_lt (Int.ediv_neg' h hb')
    · rw [← hb']
      simp
  · rw [h]
    simp

theorem floorQ_nonneg {q : Q} (h : 0 ≤ q.num) : 0 ≤ floorQ q :=
  Int.fdiv_nonneg h (Int.natCast_nonneg q.den)

theorem ceilQ_nonneg {q : Q} (h : 0 ≤ q.num) : 0 ≤ ceilQ q := by
  unfold ceilQ
  have := fdiv_nonpos_of_nonpos (a := -q.num) (by omega) (Int.natCast_nonneg q.den)
  omega

theorem rne_nonneg {q : Q} (h : 0 ≤ q.num) : 0 ≤ rne q := by
  have hf := floorQ_nonneg h
  unfold rne
  dsimp only
  split
  · exact hf
  · split
    · omega
    · split <;> omega

theorem qpow2_num_nonneg (z : ℤ) : 0 ≤ (qpow2 z).num := by
  cases z <;> simp [qpow2]

theorem qmulPow2_num_nonneg {q : Q} (h : 0 ≤ q.num) (z : ℤ) : 0 ≤ (qmulPow2 q z).num := by
  cases z with
  | ofNat n =>
    simp only [qmulPow2]
    positivity
  | negSucc n => simpa [qmulPow2] using h

theorem roundF_num_nonneg {q : Q} (h : 0 ≤ q.num) : 0 ≤ (roundF q).num := by
  unfold roundF
  split
  · simp
  · simp only [qmul, qofInt]
    exact mul_nonneg (rne_nonneg (qmulPow2_num_nonneg h _)) (qpow2_num_nonneg _)

theorem truncQ_nonneg {q : Q} (h : 0 ≤ q.num) : 0 ≤ truncQ q := by
  unfold truncQ
  rw [if_pos h]
  exact floorQ_nonneg h

theorem rule1_nonneg (r : Receipt) : 0 ≤ rule1 r := Int.natCast_nonneg _

theorem rule2_nonneg (r : Receipt) : 0 ≤ rule2 r := by
  unfold rule2
  dsimp only
  split <;> norm_num

theorem rule3_nonneg (r : Receipt) : 0 ≤ rule3 r := by
  unfold rule3
  split
  · split <;> norm_num
  · norm_num

theorem rule4_nonneg (r : Receipt) : 0 ≤ rule4 r := Int.natCast_nonneg _

theorem qpow2_den_pos (z : ℤ) : 0 < (qpow2 z).den := by
  cases z <;> simp [qpow2]

theorem roundF_den_pos (q : Q) : 0 < (roundF q).den := by
  unfold roundF
  split
  · simp
  · simp only [qmul, qofInt]
    simpa using qpow2_den_pos _

theorem le_ceilQ_mul (q : Q) (hd : 0 < q.den) : q.num ≤ ceilQ q * (q.den : ℤ) := by
  have h := Int.fdiv_add_fmod (-q.num) (q.den : ℤ)
  have hm : 0 ≤ Int.fmod (-q.num) (q.den : ℤ) :=
    Int.fmod_nonneg' _ (by exact_mod_cast hd)
  have he : ceilQ q * (q.den : ℤ) = -((q.den : ℤ) * Int.fdiv (-q.num) (q.den : ℤ)) := by
    unfold ceilQ
    ring
  omega

theorem truncQ_intval (c : ℤ) : truncQ ⟨c, 1⟩ = c := by
  unfold truncQ floorQ ceilQ
  split <;> simp

theorem wrap64_id {x : ℤ} (h0 : 0 ≤ x) (h1 : x < 2 ^ 63) : wrap64 x = x := by
  unfold wrap64
  have e63 : (2 : ℤ) ^ 63 = 9223372036854775808 := by norm_num
  have e64 : (2 : ℤ) ^ 64 = 18446744073709551616 := by norm_num
  rw [e63] at h1
  rw [e63, e64]
  rw [Int.emod_eq_of_lt (by omega) (by omega)]
  omega

theorem itemPoints_nonneg (it : Item) (h : priceOKB it = true) : 0 ≤ itemPoints it := by
  unfold itemPoints
  split
  · unfold priceOKB at h
    cases hp : parseGoFloat it.Price with
    | none => simp
    | some p =>
      rw [hp] at h
      cases p with
      | inf b => simp at h
      | nan => simp at h
      | finite q =>
        simp only [Bool.and_eq_true, decide_eq_true_eq] at h
        obtain ⟨hq, hceil⟩ := h
        unfold goMul
        dsimp only
        have hrnum : 0 ≤ (roundF (qmul q fl02)).num :=
          roundF_num_nonneg (by simp only [qmul]; exact mul_nonneg hq (by decide))
        have hrden : 0 < (roundF (qmul q fl02)).den := roundF_den_pos _
        split
        · -- the product cannot overflow: its ceiling is below 2^63 by hypothesis
          rename_i hov
          exfalso
          unfold qleB at hov
          simp only [qpow2, qabs, decide_eq_true_eq] at hov
          rw [abs_of_nonneg hrnum] at hov
          have hle := le_ceilQ_mul (roundF (qmul q fl02)) hrden
          have h2 : ((2 ^ 1024 : ℕ) : ℤ) ≤ ceilQ (roundF (qmul q fl02)) := by
            have hmul : ((2 ^ 1024 : ℕ) : ℤ) * ((roundF (qmul q fl02)).den : ℤ) ≤
                ceilQ (roundF (qmul q fl02)) * ((roundF (qmul q fl02)).den : ℤ) := by omega
            exact le_of_mul_le_mul_right hmul (by exact_mod_cast hrden)
          have hbig : (2 : ℤ) ^ 63 < ((2 ^ 1024 : ℕ) : ℤ) := by norm_num
          omega
        · unfold goCeil goInt64
          dsimp only
          rw [truncQ_intval]
          have hc0 : 0 ≤ ceilQ (roundF (qmul q fl02)) := ceilQ_nonneg hrnum
          rw [if_pos ⟨by omega, by omega⟩]
          exact hc0
  · simp

theorem rule5_nonneg (r : Receipt)
    (hp : ∀ it ∈ r.Items, priceOKB it = true) :
    0 ≤ rule5 r := by
  unfold rule5
  apply List.sum_nonneg
  intro x hx
  obtain ⟨it, hit, rfl⟩ := List.mem_map.mp hx
  exact itemPoints_nonneg it (hp it hit)

theorem rule6_nonneg (r : Receipt) : 0 ≤ rule6 r := by
  unfold rule6
  dsimp only
  split
  · split
    · split <;> norm_num
    · norm_num
  · norm_num

theorem rule7_nonneg (r : Receipt) : 0 ≤ rule7 r := by
  unfold rule7
  dsimp only
  split
  · split
    · split <;> norm_num
    · norm_num
  · norm_num

/-! ### The claims -/

/-- C1, as stated, is false on the code three ways: a total shorter than 3
bytes makes the Rule 2 slice `receipt.Total[len(receipt.Total)-3:]` panic
instead of contributing 0; a parseable negative item price makes the Rule 5
contribution `int(math.Ceil(price * 0.2))` negative; and six large positive
prices wrap the 64-bit `points` accumulator to a negative score. -/
theorem c1_counterexample :
    calculatePoints { targetReceipt with Total := str "5" } = none ∧
    calculatePoints ⟨[], [], [], [⟨[], str "-100"⟩], str "0.10"⟩ = some (-20) ∧
    calculatePoints ⟨[], [], [], List.replicate 6 ⟨[], str "9.2e18"⟩, str "0.10"⟩ =
      some (-7406744073709551601) := by
  refine ⟨by decide, by decide, by decide⟩

/-- C1 (amended): for every receipt whose total is at least 3 UTF-8 bytes
long, `calculatePoints` returns a value; the value is non-negative provided
every item price that parses does so as a non-negative finite value whose
Rule 5 ceiling stays inside the int64 range, and the exact rule total stays
below `2^63` so the 64-bit `points` accumulator does not wrap. -/
theorem c1_amended (r : Receipt) (h3 : 3 ≤ utf8Len r.Total)
    (hp : ∀ it ∈ r.Items, priceOKB it = true)
    (hsum : rule1 r + rule2 r + rule3 r + rule4 r + rule5 r + rule6 r + rule7 r < 2 ^ 63) :
    ∃ n, calculatePoints r = some n ∧ 0 ≤ n := by
  have hS : 0 ≤ rule1 r + rule2 r + rule3 r + rule4 r + rule5 r + rule6 r + rule7 r := by
    have h1 := rule1_nonneg r
    have h2 := rule2_nonneg r
    have h3 := rule3_nonneg r
    have h4 := rule4_nonneg r
    have h5 := rule5_nonneg r hp
    have h6 := rule6_nonneg r
    have h7 := rule7_nonneg r
    omega
  refine ⟨wrap64 (rule1 r + rule2 r + rule3 r + rule4 r + rule5 r + rule6 r + rule7 r), ?_, ?_⟩
  · unfold calculatePoints
    rw [if_neg ?_]
    unfold utf8Len at h3
    omega
  · rw [wrap64_id hS hsum]
    exact hS

/-- Witness for `c1_amended` at the reference receipt. -/
theorem c1_witness : ∃ n, calculatePoints targetReceipt = some n ∧ 0 ≤ n :=
  c1_amended targetReceipt (by decide) (by decide) (by decide)

/-- C3: the documented reference receipt (retailer "Target", five items,
total "35.35", date "2022-01-01", time "13:01") scores exactly 28 points. -/
theorem c3_reference_receipt : calculatePoints targetReceipt = some 28 := by decide

/-- C4: `GetPoints` returns `(0, false)` when the identifier is absent from
the mapping and the stored score with `true` when present, so absence is
never conflated with a stored score of 0. -/
theorem c4_get_present_absent (s : ReceiptStore) (id : String) :
    (s.receipts.lookup id = none → (GetPoints s id).1 = (0, false)) ∧
    (∀ p : ℤ, s.receipts.lookup id = some p → (GetPoints s id).1 = (p, true)) := by
  constructor
  · intro h
    simp [GetPoints, h]
  · intro p h
    simp [GetPoints, h]

/-- Witness for `c4_get_present_absent` on a concrete store. -/
theorem c4_witness :
    (GetPoints ⟨[("a", 5)]⟩ "b").1 = (0, false) ∧ (GetPoints ⟨[("a", 5)]⟩ "a").1 = (5, true) :=
  ⟨(c4_get_present_absent ⟨[("a", 5)]⟩ "b").1 (by decide),
   (c4_get_present_absent ⟨[("a", 5)]⟩ "a").2 5 (by decide)⟩

/-- C6: `GetPoints` leaves the store unchanged, and a repeated lookup on the
store it returns gives the same `(points, found)` answer. -/
theorem c6_get_pure (s : ReceiptStore) (id : String) :
    (GetPoints s id).2 = s ∧
    (GetPoints (GetPoints s id).2 id).1 = (GetPoints s id).1 := by
  have h2 : (GetPoints s id).2 = s := by
    unfold GetPoints
    cases s.receipts.lookup id <;> rfl
  exact ⟨h2, by rw [h2]⟩

/-- C10: the Rule 5 length check measures the trimmed description in UTF-8
bytes, not characters: a lone euro sign is 1 character but 3 bytes, so the
item earns the description-length bonus (`ceil(1.00 * 0.2) = 1` point). -/
theorem c10_bytes_not_chars :
    (goTrim (str "€")).length = 1 ∧ utf8Len (goTrim (str "€")) = 3 ∧
    itemPoints ⟨str "€", str "1.00"⟩ = 1 := by
  refine ⟨by decide, by decide, by decide⟩

theorem drop_three_eq_iff_suffix {α : Type} (l s : List α) (hs : s.length = 3) :
    l.drop (l.length - 3) = s ↔ s <:+ l := by
  constructor
  · intro h
    rw [List.suffix_iff_eq_drop, hs]
    exact h.symm
  · intro h
    have := List.suffix_iff_eq_drop.mp h
    rw [hs] at this
    exact this.symm

/-- C2: for every receipt whose total has at least 3 characters, the Rule 2
suffix access is in bounds (`calculatePoints` returns a value rather than
panicking), and Rule 2 contributes exactly 50 points iff the last three
characters of the total are ".00" (otherwise it contributes 0). -/
theorem c2_round_dollar (r : Receipt) (h : 3 ≤ r.Total.length) :
    (calculatePoints r).isSome = true ∧
    (rule2 r = 50 ↔ r.Total.drop (r.Total.length - 3) = ['.', '0', '0']) ∧
    (rule2 r = 50 ∨ rule2 r = 0) := by
  refine ⟨?_, ?_, ?_⟩
  · have hb : 3 ≤ (utf8 r.Total).length := by
      have := length_le_utf8Len r.Total
      unfold utf8Len at this
      omega
    unfold calculatePoints
    rw [if_neg (by omega)]
    rfl
  · unfold rule2
    dsimp only
    constructor
    · intro h50
      by_cases hc : (utf8 r.Total).drop ((utf8 r.Total).length - 3) = [46, 48, 48]
      · have hsuf : [46, 48, 48] <:+ utf8 r.Total :=
          (drop_three_eq_iff_suffix (utf8 r.Total) [46, 48, 48] rfl).mp hc
        exact (drop_three_eq_iff_suffix r.Total ['.', '0', '0'] rfl).mpr
          ((suffix_dot00_utf8 r.Total).mp hsuf)
      · rw [if_neg hc] at h50
        exact absurd h50 (by norm_num)
    · intro hchar
      have hsuf : ['.', '0', '0'] <:+ r.Total :=
        (drop_three_eq_iff_suffix r.Total ['.', '0', '0'] rfl).mp hchar
      have hb := (suffix_dot00_utf8 r.Total).mpr hsuf
      rw [if_pos ((drop_three_eq_iff_suffix (utf8 r.Total) [46, 48, 48] rfl).mpr hb)]
  · unfold rule2
    dsimp only
    split
    · left
      rfl
    · right
      rfl

/-- Witness for `c2_round_dollar` at the reference receipt. -/
theorem c2_witness :
    (calculatePoints targetReceipt).isSome = true ∧
    (rule2 targetReceipt = 50 ↔
      targetReceipt.Total.drop (targetReceipt.Total.length - 3) = ['.', '0', '0']) ∧
    (rule2 targetReceipt = 50 ∨ rule2 targetReceipt = 0) :=
  c2_round_dollar targetReceipt (by decide)

/-- C5: two sequential `AddReceipt` calls with the identical receipt, each
given a fresh identifier not present in the mapping, return distinct
identifiers, and `GetPoints` afterwards finds the same score
`calculatePoints r` under both. -/
theorem c5_sequential_distinct (s s1 s2 : ReceiptStore) (r : Receipt) (id1 id2 : String)
    (p : ℤ)
    (hc : calculatePoints r = some p)
    (h1 : s.receipts.lookup id1 = none)
    (ha1 : AddReceipt s id1 r = some (id1, s1))
    (h2 : s1.receipts.lookup id2 = none)
    (ha2 : AddReceipt s1 id2 r = some (id2, s2)) :
    id1 ≠ id2 ∧ (GetPoints s2 id1).1 = (p, true) ∧ (GetPoints s2 id2).1 = (p, true) := by
  unfold AddReceipt at ha1 ha2
  rw [hc] at ha1 ha2
  simp only [Option.some.injEq, Prod.mk.injEq, true_and] at ha1 ha2
  subst ha1
  subst ha2
  have hne : id1 ≠ id2 := by
    intro he
    subst he
    simp [List.lookup] at h2
  refine ⟨hne, ?_, ?_⟩
  · unfold GetPoints
    simp [List.lookup, beq_eq_false_iff_ne.mpr hne]
  · unfold GetPoints
    simp [List.lookup]

/-- Witness for `c5_sequential_distinct` on the empty store. -/
theorem c5_witness :
    "a" ≠ "b" ∧
    (GetPoints ⟨[("b", 28), ("a", 28)]⟩ "a").1 = (28, true) ∧
    (GetPoints ⟨[("b", 28), ("a", 28)]⟩ "b").1 = (28, true) :=
  c5_sequential_distinct ⟨[]⟩ ⟨[("a", 28)]⟩ ⟨[("b", 28), ("a", 28)]⟩ targetReceipt "a" "b" 28
    (by decide) (by decide) (by decide) (by decide) (by decide)

/-- C7: per item, Rule 5 adds `int(math.Ceil(price * 0.2))` (the float64
computation the spec's rounding note prescribes, with the gc/amd64 `int`
conversion) exactly when the trimmed description's byte length is a multiple
of 3 — including trimmed length 0 — and adds 0 when the price fails to parse
under `strconv.ParseFloat`. -/
theorem c7_item_rule (it : Item) :
    (utf8Len (goTrim it.ShortDescription) % 3 = 0 →
      itemPoints it = match parseGoFloat it.Price with
        | some p => goInt64 (goCeil (goMul p fl02))
        | none => 0) ∧
    (utf8Len (goTrim it.ShortDescription) % 3 ≠ 0 → itemPoints it = 0) ∧
    (parseGoFloat it.Price = none → itemPoints it = 0) ∧
    (goTrim it.ShortDescription = [] → ∀ p, parseGoFloat it.Price = some p →
      itemPoints it = goInt64 (goCeil (goMul p fl02))) := by
  refine ⟨?_, ?_, ?_, ?_⟩
  · intro h
    unfold itemPoints
    rw [if_pos h]
  · intro h
    unfold itemPoints
    rw [if_neg h]
  · intro h
    unfold itemPoints
    split
    · rw [h]
    · rfl
  · intro he p hp
    have h0 : utf8Len (goTrim it.ShortDescription) % 3 = 0 := by
      rw [he]
      rfl
    unfold itemPoints
    rw [if_pos h0, hp]

/-- Witness for `c7_item_rule`: a whitespace-only description (trimmed length
0) with the underscored price "1_2.00" (which `strconv.ParseFloat` accepts as
12.0) earns `int(math.Ceil(12.0 * 0.2)) = 3`. -/
theorem c7_witness :
    goTrim (str "   ") = [] ∧
    parseGoFloat (str "1_2.00") = some (GoFloat.finite ⟨6755399441055744, 562949953421312⟩) ∧
    itemPoints ⟨str "   ", str "1_2.00"⟩ =
      goInt64 (goCeil (goMul (GoFloat.finite ⟨6755399441055744, 562949953421312⟩) fl02)) ∧
    itemPoints ⟨str "   ", str "1_2.00"⟩ = 3 :=
  ⟨by decide, by decide,
   (c7_item_rule ⟨str "   ", str "1_2.00"⟩).2.2.2 (by decide) _ (by decide),
   by decide⟩

/-- C8: Rule 3 adds exactly 25 points when the total parses under
`strconv.ParseFloat` and its value, multiplied by 100 in float64 and
converted to integer cents by the gc/amd64 `int` conversion, is divisible by
25, and 0 when parsing fails; "35.25" earns it, "35.10" does not. -/
theorem c8_quarter_rule :
    (∀ r : Receipt,
      (∀ f, parseGoFloat r.Total = some f →
        rule3 r = if Int.tmod (goInt64 (goMul f (qofInt 100))) 25 = 0 then 25 else 0) ∧
      (parseGoFloat r.Total = none → rule3 r = 0)) ∧
    rule3 { targetReceipt with Total := str "35.25" } = 25 ∧
    rule3 { targetReceipt with Total := str "35.10" } = 0 := by
  refine ⟨fun r => ⟨?_, ?_⟩, by decide, by decide⟩
  · intro f hf
    unfold rule3
    rw [hf]
  · intro hf
    unfold rule3
    rw [hf]

/-- Witness for `c8_quarter_rule` at the underscored total "1_00.00", which
`strconv.ParseFloat` accepts as 100.0, earning the quarter bonus. -/
theorem c8_witness :
    (rule3 { targetReceipt with Total := str "1_00.00" } =
      if Int.tmod (goInt64 (goMul (GoFloat.finite ⟨7036874417766400, 70368744177664⟩)
          (qofInt 100))) 25 = 0
      then 25 else 0) ∧
    rule3 { targetReceipt with Total := str "1_00.00" } = 25 :=
  ⟨(c8_quarter_rule.1 _).1 (GoFloat.finite ⟨7036874417766400, 70368744177664⟩) (by decide),
   by decide⟩

/-- C9: `AddReceipt` with a fresh identifier inserts exactly one new entry,
mapping the returned identifier to `calculatePoints r`, and leaves the
lookup of every other identifier unchanged. -/
theorem c9_add_frame (s s' : ReceiptStore) (r : Receipt) (id : String)
    (hfresh : s.receipts.lookup id = none)
    (ha : AddReceipt s id r = some (id, s')) :
    ∃ pts, calculatePoints r = some pts ∧
      s'.receipts = (id, pts) :: s.receipts ∧
      s'.receipts.lookup id = some pts ∧
      ∀ k, k ≠ id → s'.receipts.lookup k = s.receipts.lookup k := by
  cases hc : calculatePoints r with
  | none =>
    unfold AddReceipt at ha
    rw [hc] at ha
    exact absurd ha (by simp)
  | some pts =>
    unfold AddReceipt at ha
    rw [hc] at ha
    simp only [Option.some.injEq, Prod.mk.injEq, true_and] at ha
    subst ha
    refine ⟨pts, rfl, rfl, ?_, ?_⟩
    · simp [List.lookup]
    · intro k hk
      simp [List.lookup, beq_eq_false_iff_ne.mpr hk]

/-- Witness for `c9_add_frame` on the empty store. -/
theorem c9_witness :
    ∃ pts, calculatePoints targetReceipt = some pts ∧
      (ReceiptStore.mk [("a", 28)]).receipts = ("a", pts) :: (NewReceiptStore).receipts ∧
      (ReceiptStore.mk [("a", 28)]).receipts.lookup "a" = some pts ∧
      ∀ k, k ≠ "a" →
        (ReceiptStore.mk [("a", 28)]).receipts.lookup k = (NewReceiptStore).receipts.lookup k :=
  c9_add_frame NewReceiptStore ⟨[("a", 28)]⟩ targetReceipt "a" (by decide) (by decide)
